import Mathlib

/-!
Verification of the personnel-directory ingestion and search engine of the
cont-portal repository.

The definitions below are a shallow embedding of the JavaScript/TypeScript
source:
  * the text normalizer, header detector, row extractor and directory cache
    of the server (`server/index.js`);
  * the search engine of the in-page hook (`useInternalDirectory`).

Strings are modelled as Lean `String`s over their `List Char` data.  JS
`toLowerCase` and Unicode-NFD accent stripping are modelled for the Basic
Latin and Latin-1 repertoire (the repertoire of the source spreadsheets and
of every dictionary token in the code); characters outside that repertoire
are left unchanged by the model.  The JS whitespace class is modelled by the
common whitespace characters (space, tab, CR, LF, vertical tab, form feed,
no-break space).  Spreadsheet cells are modelled by an inductive `Cell` type
(string, integer number, or empty), matching the value kinds the decoder
produces and the truthiness tests the code performs on them.
-/

/-- JS whitespace class `\s`, modelled by its common members. -/
def isJsSpace (c : Char) : Bool :=
  c == ' ' || c == '\t' || c == '\n' || c == '\r' ||
  c == (Char.ofNat 0x0B) || c == (Char.ofNat 0x0C) || c == (Char.ofNat 0xA0)

/-- JS word-character class `\w`: ASCII letters, digits and underscore. -/
def isWordChar (c : Char) : Bool :=
  (('a' ≤ c && c ≤ 'z') || ('A' ≤ c && c ≤ 'Z') || ('0' ≤ c && c ≤ '9') || c == '_')

/-- JS `toLowerCase` on one character, for Basic Latin and Latin-1. -/
def jsToLower (c : Char) : Char :=
  if 'A' ≤ c && c ≤ 'Z' then Char.ofNat (c.toNat + 32)
  else if 0xC0 ≤ c.toNat && c.toNat ≤ 0xDE && c.toNat != 0xD7 then Char.ofNat (c.toNat + 32)
  else c

/-- JS `toLowerCase` on a string. -/
def jsToLowerStr (s : String) : String :=
  String.mk (s.data.map jsToLower)

/-- Unicode NFD decomposition followed by removal of combining diacritical
marks (U+0300..U+036F), the composition used by `normalizeText`; modelled on
the Latin-1 letters (the accented letters of the source data).  A combining
mark is erased, an accented Latin-1 letter is replaced by its base letter,
anything else is kept. -/
def stripAccent (c : Char) : List Char :=
  let n := c.toNat
  if 0x300 ≤ n && n ≤ 0x36F then []
  else if 0xE0 ≤ n && n ≤ 0xE5 then ['a']
  else if n == 0xE7 then ['c']
  else if 0xE8 ≤ n && n ≤ 0xEB then ['e']
  else if 0xEC ≤ n && n ≤ 0xEF then ['i']
  else if n == 0xF1 then ['n']
  else if 0xF2 ≤ n && n ≤ 0xF6 then ['o']
  else if 0xF9 ≤ n && n ≤ 0xFC then ['u']
  else if n == 0xFD || n == 0xFF then ['y']
  else [c]

/-- One pass of `replace(/[,\s-]+/g, " ")`: a maximal run of commas,
whitespace and hyphens becomes a single space.  The boolean argument records
whether the previous character was part of such a run. -/
def collapseSeps : List Char → Bool → List Char
  | [], _ => []
  | c :: rest, inRun =>
    if c == ',' || c == '-' || isJsSpace c then
      if inRun then collapseSeps rest true else ' ' :: collapseSeps rest true
    else c :: collapseSeps rest false

/-- JS `trim` on a character list: drop whitespace from both ends. -/
def trimChars (cs : List Char) : List Char :=
  ((cs.dropWhile isJsSpace).reverse.dropWhile isJsSpace).reverse

/-- JS `String.prototype.trim`. -/
def jsTrim (s : String) : String :=
  String.mk (trimChars s.data)

/-- `normalizeText` from the source: lowercase, NFD-decompose and strip
combining marks, collapse commas/whitespace/hyphens to single spaces, strip
remaining non-word non-space characters, trim. -/
def normalizeText (s : String) : String :=
  let cs := s.data.map jsToLower
  let cs := cs.flatMap stripAccent
  let cs := collapseSeps cs false
  let cs := cs.filter (fun c => isWordChar c || isJsSpace c)
  String.mk (trimChars cs)

/-- Boolean prefix test on character lists (JS `startsWith` semantics). -/
def listIsPrefixOf : List Char → List Char → Bool
  | [], _ => true
  | _ :: _, [] => false
  | a :: as, b :: bs => a == b && listIsPrefixOf as bs

/-- Boolean substring test on character lists (JS `includes` semantics). -/
def listIsInfixOf (sub : List Char) : List Char → Bool
  | [] => sub.isEmpty
  | c :: rest => listIsPrefixOf sub (c :: rest) || listIsInfixOf sub rest

/-- JS `s.includes(sub)`. -/
def strIncludes (s sub : String) : Bool :=
  listIsInfixOf sub.data s.data

/-- JS `s.startsWith(pre)`. -/
def strStartsWith (s pre : String) : Bool :=
  listIsPrefixOf pre.data s.data

/-- Specification-side prefix predicate: `a` is an initial segment of `b`. -/
def IsPrefixP (a b : List Char) : Prop :=
  ∃ t, a ++ t = b

/-- Specification-side substring predicate: `a` occurs contiguously in `b`. -/
def IsInfixP (a b : List Char) : Prop :=
  ∃ s t, s ++ a ++ t = b

/-! ### The memoized normalizer (`cachedNormalizeText`)

The JS module keeps a `Map` from raw input strings to normalized strings.
A JS `Map` preserves insertion order, so it is modelled as an association
list in insertion order: lookup scans from the front, a new binding is
appended at the back, and `keys().next().value` (the eviction victim) is
the head of the list. -/

/-- `Map.get` / `Map.has` on the insertion-ordered association list. -/
def cacheLookup : List (String × String) → String → Option String
  | [], _ => none
  | (k, v) :: rest, key => if k == key then some v else cacheLookup rest key

/-- One call to `cachedNormalizeText`: on a hit return the cached value; on a
miss compute `normalizeText`, evict the oldest key when the map already holds
more than 1000 entries, then store the new binding.  Returns the new cache
and the returned string. -/
def cachedNormalizeTextStep (cache : List (String × String)) (text : String) :
    List (String × String) × String :=
  match cacheLookup cache text with
  | some v => (cache, v)
  | none =>
    let normalized := normalizeText text
    let cache' := if cache.length > 1000 then cache.tail else cache
    (cache' ++ [(text, normalized)], normalized)

/-- Coherence of the memo cache: every stored value is the normalization of
its key.  This holds for the empty initial cache and is preserved by calls. -/
def cacheCoherent (cache : List (String × String)) : Prop :=
  ∀ p ∈ cache, p.2 = normalizeText p.1

/-! ### The decoded grid and the header detector -/

/-- A decoded spreadsheet cell: a string, an integer number, or absent
(`null`/`undefined`/missing). -/
inductive Cell where
  | str (s : String)
  | num (n : Int)
  | empty
deriving DecidableEq

/-- JS falsiness of a cell value, as tested by
`!cell || cell === '' || cell === 0` in the empty-row check. -/
def Cell.isFalsy : Cell → Bool
  | .str s => s == ""
  | .num n => n == 0
  | .empty => true

/-- `normalizeCellValue`: `""` for `null`/`undefined`, else `String(value).trim()`. -/
def cellToText : Cell → String
  | .str s => jsTrim s
  | .num n => jsTrim (toString n)
  | .empty => ""

/-- `HEADER_TOKENS.extension`. -/
def extensionTokens : List String :=
  ["interno", "internos", "extension", "ext", "anexo", "telefono", "telefonos", "int"]

/-- `HEADER_TOKENS.department`. -/
def departmentTokens : List String :=
  ["sector", "departamento", "area", "unidad", "seccion"]

/-- `HEADER_TOKENS.title`. -/
def titleTokens : List String :=
  ["titulo", "cargo", "puesto", "funcion"]

/-- `HEADER_TOKENS.name`. -/
def nameTokens : List String :=
  ["apellido y nombre", "apellidos y nombres", "apellido", "nombre", "responsable", "contacto"]

/-- `matchesHeaderToken`: the normalized cell equals a token or contains it. -/
def matchesHeaderToken (normalized : String) (tokens : List String) : Bool :=
  tokens.any (fun token => normalized == token || strIncludes normalized token)

/-- The column map of a header row; `-1` marks an undetected column. -/
structure ColumnMap where
  extensionIndex : Int
  departmentIndex : Int
  titleIndex : Int
  nameIndex : Int
deriving DecidableEq

/-- `DEFAULT_COLUMN_INDICES`: extension=1, department=2, title=3, name=4. -/
def defaultColumnMap : ColumnMap :=
  ⟨1, 2, 3, 4⟩

/-- The running state of the per-row header scan: the column map under
construction and the four found-flags of `detectHeaderMapping`. -/
structure HeaderScan where
  map : ColumnMap
  foundExtension : Bool
  foundDepartment : Bool
  foundTitle : Bool
  foundName : Bool
deriving DecidableEq

/-- The scan state at the start of each row: nothing found, all indices -1. -/
def initHeaderScan : HeaderScan :=
  ⟨⟨-1, -1, -1, -1⟩, false, false, false, false⟩

/-- The body of the `row.forEach((cell, idx) => ...)` of
`detectHeaderMapping`: skip an empty normalized cell, otherwise each of the
four categories independently records this column when it has not yet found
one and the cell matches its dictionary. -/
def updateScan (st : HeaderScan) (idx : Nat) (normalized : String) : HeaderScan :=
  if normalized == "" then st
  else
    { map :=
        { extensionIndex :=
            if !st.foundExtension && matchesHeaderToken normalized extensionTokens then
              Int.ofNat idx
            else st.map.extensionIndex
          departmentIndex :=
            if !st.foundDepartment && matchesHeaderToken normalized departmentTokens then
              Int.ofNat idx
            else st.map.departmentIndex
          titleIndex :=
            if !st.foundTitle && matchesHeaderToken normalized titleTokens then
              Int.ofNat idx
            else st.map.titleIndex
          nameIndex :=
            if !st.foundName && matchesHeaderToken normalized nameTokens then
              Int.ofNat idx
            else st.map.nameIndex }
      foundExtension := st.foundExtension || matchesHeaderToken normalized extensionTokens
      foundDepartment := st.foundDepartment || matchesHeaderToken normalized departmentTokens
      foundTitle := st.foundTitle || matchesHeaderToken normalized titleTokens
      foundName := st.foundName || matchesHeaderToken normalized nameTokens }

/-- The per-row cell loop of `detectHeaderMapping`, `idx` being the column
index of the first cell of `cells` within the row. -/
def scanHeaderRow : List Cell → Nat → HeaderScan → HeaderScan
  | [], _, st => st
  | cell :: rest, idx, st =>
    scanHeaderRow rest (idx + 1) (updateScan st idx (normalizeText (cellToText cell)))

/-- The row loop of `detectHeaderMapping`: scan at most the first
`HEADER_SCAN_ROWS = 20` rows, return the first row whose scan found a name
column and an extension or department column; otherwise return `-1` with the
default column map. -/
def detectHeaderAux : List (List Cell) → Nat → Int × ColumnMap
  | [], _ => (-1, defaultColumnMap)
  | row :: rest, i =>
    if i ≥ 20 then (-1, defaultColumnMap)
    else
      let st := scanHeaderRow row 0 initHeaderScan
      if st.foundName && (st.foundExtension || st.foundDepartment) then (Int.ofNat i, st.map)
      else detectHeaderAux rest (i + 1)

/-- `detectHeaderMapping`: header row index (or -1) and column map. -/
def detectHeaderMapping (rawData : List (List Cell)) : Int × ColumnMap :=
  detectHeaderAux rawData 0

/-- Whether a cell, once normalized, matches a header dictionary. -/
def headerPred (tokens : List String) (cell : Cell) : Bool :=
  matchesHeaderToken (normalizeText (cellToText cell)) tokens

/-- Specification-side reading of one header category: the first column of
the row whose normalized text matches the dictionary. -/
def specRowIdx (row : List Cell) (tokens : List String) : Option Nat :=
  row.findIdx? (headerPred tokens)

/-- An `Option Nat` column index as the `-1`-defaulted integer the code stores. -/
def optIdxToInt : Option Nat → Int
  | some i => Int.ofNat i
  | none => -1

/-- Specification-side column map of a row: for each category, the first
matching column index, `-1` when the row has none. -/
def specColumnMap (row : List Cell) : ColumnMap :=
  { extensionIndex := optIdxToInt (specRowIdx row extensionTokens)
    departmentIndex := optIdxToInt (specRowIdx row departmentTokens)
    titleIndex := optIdxToInt (specRowIdx row titleTokens)
    nameIndex := optIdxToInt (specRowIdx row nameTokens) }

/-- Specification-side header-row test: the row matches the name dictionary
and at least one of the extension or department dictionaries. -/
def specRowQualifies (row : List Cell) : Bool :=
  (specRowIdx row nameTokens).isSome &&
    ((specRowIdx row extensionTokens).isSome || (specRowIdx row departmentTokens).isSome)

/-! ### The row extractor / record builder -/

/-- `normalizeExtensionValue`: strip a trailing `.0`-style decimal artifact
(the regex `\.0+$`). -/
def normalizeExtensionValue (s : String) : String :=
  let r := s.data.reverse
  let rest := r.dropWhile (· == '0')
  if rest.length < r.length && rest.head? == some '.' then
    String.mk rest.tail.reverse
  else s

/-- `normalizeExtensionSearch`: the digits of the value, or the lowercase
value when it has no digit. -/
def normalizeExtensionSearch (s : String) : String :=
  let digitsOnly := s.data.filter Char.isDigit
  if digitsOnly.isEmpty then jsToLowerStr s else String.mk digitsOnly

/-- `isNumericExtension`: after removing whitespace and dots, nonempty and
all digits. -/
def isNumericExtension (s : String) : Bool :=
  let cleaned := s.data.filter (fun c => !isJsSpace c && c != '.')
  !cleaned.isEmpty && cleaned.all Char.isDigit

/-- `uniqueIndices` body: drop negative indices, de-duplicate keeping the
first occurrence. -/
def uniqueIndicesAux (seen : List Int) : List Int → List Int
  | [] => []
  | i :: rest =>
    if i < 0 || seen.contains i then uniqueIndicesAux seen rest
    else i :: uniqueIndicesAux (i :: seen) rest

/-- `uniqueIndices`, producing the natural column indices actually probed. -/
def uniqueIndices (indices : List Int) : List Nat :=
  (uniqueIndicesAux [] indices).map Int.toNat

/-- `pickCellText`: the first probed column holding a nonempty cell text; an
out-of-range column reads as the empty cell. -/
def pickCellText (row : List Cell) : List Nat → String
  | [] => ""
  | idx :: rest =>
    let value := cellToText (row.getD idx Cell.empty)
    if value != "" then value else pickCellText row rest

/-- `STOP_TOKEN_NORMALIZED`: the two sentinel phrases, normalized. -/
def stopTokens : List String :=
  [normalizeText "telefonos internos reserva", normalizeText "reserva 6000"]

/-- `shouldStopProcessing`: a row with neither a name nor a numeric-looking
extension stops processing when some nonempty cell text normalizes to a
string containing a sentinel phrase. -/
def shouldStopProcessing (values : List String) (hasName hasNumericExtension : Bool) : Bool :=
  if hasName || hasNumericExtension then false
  else
    values.any (fun value =>
      if value == "" then false
      else
        let normalized := normalizeText value
        normalized.length > 0 && stopTokens.any (fun token => strIncludes normalized token))

/-- One attempted separator match of the `splitNames` regex
`\s*\/\s*|\s*;\s*|\s*\|\s*|\r?\n|\s+-\s+` at the head of the input; returns
the input after the separator when one of the five alternatives matches
here. -/
def matchSepAt (cs : List Char) : Option (List Char) :=
  let d := cs.dropWhile isJsSpace
  match d with
  | '/' :: rest => some (rest.dropWhile isJsSpace)
  | ';' :: rest => some (rest.dropWhile isJsSpace)
  | '|' :: rest => some (rest.dropWhile isJsSpace)
  | _ =>
    match cs with
    | '\r' :: '\n' :: rest => some rest
    | '\n' :: rest => some rest
    | _ =>
      if d.length < cs.length then
        match d with
        | '-' :: rest =>
          let r2 := rest.dropWhile isJsSpace
          if r2.length < rest.length then some r2 else none
        | _ => none
      else none

/-- The segment loop of `splitNames`' `value.split(regex)`: characters are
accumulated (reversed) into the current segment until a separator matches,
which closes the segment.  The fuel argument (instantiated with the input
length, which bounds the number of steps since every step consumes at least
one character) keeps the recursion structural and hence executable. -/
def splitSegmentsFuel : Nat → List Char → List Char → List (List Char)
  | 0, current, _ => [current.reverse]
  | fuel + 1, current, cs =>
    match matchSepAt cs with
    | some after => current.reverse :: splitSegmentsFuel fuel [] after
    | none =>
      match cs with
      | [] => [current.reverse]
      | c :: rest => splitSegmentsFuel fuel (c :: current) rest

/-- `splitNames`: split a name cell on the separator regex, trim each piece,
drop empty pieces. -/
def splitNames (s : String) : List String :=
  ((splitSegmentsFuel s.data.length [] s.data).map
      (fun cs => jsTrim (String.mk cs))).filter (· != "")

/-- A parsed directory entry (the fields the parser emits). -/
structure Personnel where
  id : String
  name : String
  department : String
  extension : String
  searchableName : String
  searchableExtension : String
deriving DecidableEq

/-- The two boilerplate exclusions and the emptiness checks of the
`filteredNames` filter in `processExcelData`. -/
def nameSurvivesFilter (name : String) : Bool :=
  name != "" &&
  !strIncludes (jsToLowerStr name) "acalandra@servicoop.com" &&
  !strIncludes (jsToLowerStr name) "sector comunicaciones al interno" &&
  jsTrim name != ""

/-- One `PersonnelRecord` as pushed by `processExcelData`, `idNum` being the
value of the sequential counter when it is pushed. -/
def buildRecord (idNum : Nat) (name department extensionValue : String) : Personnel :=
  { id := Nat.repr idNum
    name := name
    department := department
    extension := if extensionValue == "" then "N/A" else extensionValue
    searchableName := normalizeText name
    searchableExtension := normalizeExtensionSearch extensionValue }

/-- The records pushed for one data row: one per surviving name, with
consecutive ids starting at `idNum`. -/
def buildRecords (idNum : Nat) (names : List String) (department extensionValue : String) :
    List Personnel :=
  names.enum.map (fun p => buildRecord (idNum + p.1) p.2 department extensionValue)

/-- The repeated-header test applied to each data row: the normalized cells
match the name dictionary and the extension or department dictionary. -/
def repeatedHeaderRow (normalizedRow : List String) : Bool :=
  (normalizedRow.any (fun v => matchesHeaderToken v nameTokens)) &&
    ((normalizedRow.any (fun v => matchesHeaderToken v extensionTokens)) ||
      (normalizedRow.any (fun v => matchesHeaderToken v departmentTokens)))

/-- What the body of the `processExcelData` row loop does with one row:
skip it, stop all processing, or emit the surviving names together with the
row's department and (`.0`-stripped) extension value. -/
inductive RowAction where
  | skip
  | stop
  | emit (names : List String) (department : String) (extensionValue : String)
deriving DecidableEq

/-- The decision logic of one iteration of the `processExcelData` row loop,
in source order: empty-row skip, repeated-header skip, column resolution via
the fallback chains, the stop-sentinel check, the no-data skip, name
splitting and filtering. -/
def rowAction (columnMap : ColumnMap) (row : List Cell) : RowAction :=
  if row.all Cell.isFalsy then .skip
  else
    let rowValues := row.map cellToText
    let normalizedRow := rowValues.map normalizeText
    if repeatedHeaderRow normalizedRow then .skip
    else
      let extensionRaw := pickCellText row (uniqueIndices [columnMap.extensionIndex, 1, 0])
      let nameRaw := pickCellText row (uniqueIndices [columnMap.nameIndex, 4, 3])
      let departmentRaw := pickCellText row (uniqueIndices [columnMap.departmentIndex, 2, 3])
      let extensionValue := if extensionRaw != "" then normalizeExtensionValue extensionRaw else ""
      let hasName : Bool := nameRaw.length > 0
      let hasExtension : Bool := extensionValue.length > 0
      let hasNumericExtension : Bool :=
        if extensionRaw != "" then isNumericExtension extensionRaw else false
      if shouldStopProcessing rowValues hasName hasNumericExtension then .stop
      else if hasName || hasExtension then
        let names := if hasName then splitNames nameRaw else ["Sin Nombre"]
        let department := if departmentRaw != "" then departmentRaw else "Sector sin identificar"
        let filteredNames := names.filter nameSurvivesFilter
        if filteredNames.isEmpty then .skip else .emit filteredNames department extensionValue
      else .skip

/-- The row loop of `processExcelData` over the data rows, with the running
id counter; a stop row discards itself and every later row. -/
def processRows (columnMap : ColumnMap) : List (List Cell) → Nat → List Personnel
  | [], _ => []
  | row :: rest, idNum =>
    match rowAction columnMap row with
    | .skip => processRows columnMap rest idNum
    | .stop => []
    | .emit names department extensionValue =>
      buildRecords idNum names department extensionValue ++
        processRows columnMap rest (idNum + names.length)

/-- `processExcelData`: detect the header, then extract records from the
rows after it (from row 0 when no header was found), ids starting at 1. -/
def processExcelData (rawData : List (List Cell)) : List Personnel :=
  let hm := detectHeaderMapping rawData
  let dataStartIndex := if hm.1 ≥ 0 then hm.1.toNat + 1 else 0
  processRows hm.2 (rawData.drop dataStartIndex) 1

/-! ### The search engine (`useInternalDirectory`) -/

/-- JS `s.split(' ')` on character lists: split on every single space
character, keeping empty segments. -/
def splitOnSpace : List Char → List (List Char)
  | [] => [[]]
  | c :: rest =>
    match splitOnSpace rest with
    | [] => [[c]]
    | g :: gs => if c == ' ' then [] :: g :: gs else (c :: g) :: gs

/-- JS `s.split(' ')`. -/
def splitWords (s : String) : List String :=
  (splitOnSpace s.data).map String.mk

/-- `normalizeApellido`: the normalized surname of a display name — the part
before the first comma, else the first space-delimited word, else the whole
name. -/
def normalizeApellido (nombre : String) : String :=
  if nombre == "" then ""
  else
    let base :=
      if nombre.data.contains ',' then String.mk (nombre.data.takeWhile (· != ','))
      else String.mk (nombre.data.takeWhile (· != ' '))
    normalizeText (if base == "" then nombre else base)

/-- `computeSearchScore`: 3 for an exact surname match, 2 when every term is
a prefix of (or equals) some name word, 1 when every term is a substring of
the searchable name, 0 otherwise. -/
def computeSearchScore (p : Personnel) (normalizedQuery : String) (searchTerms : List String) :
    Nat :=
  let apellido := normalizeApellido p.name
  if apellido != "" && normalizedQuery == apellido then 3
  else
    let words := (splitWords p.searchableName).filter (· != "")
    if searchTerms.all (fun term => words.any (fun word => strStartsWith word term || word == term))
    then 2
    else if searchTerms.all (fun term => strIncludes p.searchableName term) then 1
    else 0

/-- A search result: the record plus the transient search-time fields. -/
structure ScoredPersonnel where
  person : Personnel
  searchTerms : List String
  searchScore : Nat
deriving DecidableEq

/-- The `addResults` helper of `filteredResults`: append the items whose id
has not been seen, recording seen ids. -/
def addResults : List String × List Personnel → List Personnel → List String × List Personnel
  | st, [] => st
  | (seen, results), item :: rest =>
    if seen.contains item.id then addResults (seen, results) rest
    else addResults (item.id :: seen, results ++ [item]) rest

/-- `filteredResults`: the search over the in-memory record list.  Queries
failing the length guard yield `[]`; an all-digits (whitespace-stripped)
normalized query is an extension-substring search; otherwise exact
(prefix-per-word) name matches are expanded to every record sharing an
extension with one of them, falling back to substring name matches, and a
single-term query additionally unions the department matches; results are
de-duplicated by id in first-seen order and decorated with the query terms
and a score. -/
def filteredResults (query : String) (allPersonnel : List Personnel) : List ScoredPersonnel :=
  if jsTrim query == "" || query.length < 2 then []
  else
    let normalizedQuery := normalizeText (jsTrim query)
    let searchTerms := (splitWords normalizedQuery).filter (fun t => t.length > 0)
    let numericQuery := String.mk (normalizedQuery.data.filter (fun c => !isJsSpace c))
    let isNumericQuery := numericQuery != "" && numericQuery.data.all Char.isDigit
    let matchingPersonnel :=
      if isNumericQuery then
        allPersonnel.filter (fun p => strIncludes p.searchableExtension numericQuery)
      else
        let departmentMatches :=
          allPersonnel.filter (fun p => strIncludes (normalizeText p.department) normalizedQuery)
        let exactMatches :=
          allPersonnel.filter (fun p =>
            searchTerms.all (fun term =>
              (splitWords p.searchableName).any (fun word =>
                strStartsWith word term || word == term)))
        let afterMain :=
          if !exactMatches.isEmpty then
            let matchingExtensions := exactMatches.map (·.extension)
            addResults ([], [])
              (allPersonnel.filter (fun p => matchingExtensions.contains p.extension))
          else
            addResults ([], [])
              (allPersonnel.filter (fun p =>
                searchTerms.all (fun term => strIncludes p.searchableName term)))
        let afterDept :=
          if !departmentMatches.isEmpty && searchTerms.length == 1 then
            addResults afterMain departmentMatches
          else afterMain
        afterDept.2
    matchingPersonnel.map (fun p =>
      { person := p, searchTerms := searchTerms
        searchScore := computeSearchScore p normalizedQuery searchTerms })

/-- Specification-side first-seen de-duplication by id. -/
def dedupById : List Personnel → List String → List Personnel
  | [], _ => []
  | p :: rest, seen =>
    if seen.contains p.id then dedupById rest seen
    else p :: dedupById rest (p.id :: seen)

/-! ### The directory cache (`internosCache` / `refreshInternosCache`)

`refreshInternosCache` is an async function; in JS, execution between two
`await` points is atomic (run-to-completion event loop).  After
`await fs.stat`, the cache-hit check, the in-flight check and the
installation of the in-flight promise run inside one such atomic segment
(`refreshEnter` below); the parse then runs, and its completion — the
`try`/`catch`/`finally` that installs the result or the error and clears the
in-flight field — is a second atomic segment (`refreshComplete`).  The
in-flight promise is modelled by a token identifying the parse.
`lastLoadedAt` (a wall-clock timestamp used nowhere else) is omitted. -/

/-- The error of a failed load: a missing file (`ENOENT`) or another error. -/
inductive ParseError where
  | enoent
  | other (message : String)
deriving DecidableEq

/-- The payload cached by the server: the parsed personnel list. -/
structure CachePayload where
  personnel : List Personnel
deriving DecidableEq

/-- The module-level `internosCache` state. -/
structure InternosCache where
  mtimeMs : Int
  payload : Option CachePayload
  inflight : Option Nat
  lastError : Option ParseError
deriving DecidableEq

/-- What the first atomic segment of a `refreshInternosCache` call did. -/
inductive EnterOutcome where
  | hit
  | joined (token : Nat)
  | started (token : Nat)
deriving DecidableEq

/-- The first atomic segment of `refreshInternosCache` (after `fs.stat`
resolves to `statMtime`): return the cached payload when not forcing and the
modification time matches; otherwise join an in-flight parse when there is
one; otherwise install a new in-flight parse identified by `token`. -/
def refreshEnter (c : InternosCache) (force : Bool) (statMtime : Int) (token : Nat) :
    InternosCache × EnterOutcome :=
  if !force && c.payload.isSome && c.mtimeMs == statMtime then (c, .hit)
  else
    match c.inflight with
    | some t => (c, .joined t)
    | none => ({ c with inflight := some token }, .started token)

/-- The completion segment of `refreshInternosCache`: on success install the
payload and the observed modification time and clear the last error; on
failure record the error and leave the payload and modification time alone;
in both cases clear the in-flight field (the `finally`). -/
def refreshComplete (c : InternosCache) (statMtime : Int)
    (parseResult : Except ParseError CachePayload) : InternosCache :=
  match parseResult with
  | .ok payload =>
    { mtimeMs := statMtime, payload := some payload, inflight := none, lastError := none }
  | .error e =>
    { c with lastError := some e, inflight := none }

/-- The observable outcome of a whole `refreshInternosCache` call. -/
inductive RunResult where
  | servedCached
  | joinedInflight (token : Nat)
  | completed (result : Except ParseError CachePayload)

/-- One whole `refreshInternosCache` call, sequentially: the entry segment,
then — when a parse was started — its completion with `parseResult`. -/
def refreshRun (c : InternosCache) (force : Bool) (statMtime : Int) (token : Nat)
    (parseResult : Except ParseError CachePayload) : InternosCache × RunResult :=
  match refreshEnter c force statMtime token with
  | (c1, .hit) => (c1, .servedCached)
  | (c1, .joined t) => (c1, .joinedInflight t)
  | (c1, .started _) => (refreshComplete c1 statMtime parseResult, .completed parseResult)

/-- A response of `GET /api/internos`. -/
inductive ApiResponse where
  | okPayload (payload : CachePayload)
  | loading503
  | notFound404
  | unavailable503
deriving DecidableEq

/-- The `GET /api/internos` handler: serve the cached payload when there is
one; else report loading when a parse is in flight; else map the last error
(`ENOENT` to 404, anything else to 503). -/
def internosEndpoint (c : InternosCache) : ApiResponse :=
  match c.payload with
  | some payload => .okPayload payload
  | none =>
    if c.inflight.isSome then .loading503
    else
      match c.lastError with
      | some .enoent => .notFound404
      | _ => .unavailable503

/-! ### Specification-side vocabulary for the claims -/

/-- The whitespace-stripped normalized query (`numericQuery` in the code),
the variant tested for a purely numeric extension search. -/
def numericVariant (query : String) : String :=
  String.mk ((normalizeText (jsTrim query)).data.filter (fun c => !isJsSpace c))

/-- The whitespace-separated terms of the normalized query. -/
def searchTermsOf (query : String) : List String :=
  (splitWords (normalizeText (jsTrim query))).filter (fun t => t.length > 0)

/-- A record is an exact match for the query terms when every term equals or
is a prefix of some whitespace-delimited token of `searchableName`. -/
def exactNameMatch (terms : List String) (p : Personnel) : Bool :=
  terms.all (fun term =>
    (splitWords p.searchableName).any (fun word => strStartsWith word term || word == term))

/-- The records whose normalized department contains the normalized query. -/
def departmentMatchesOf (ps : List Personnel) (normalizedQuery : String) : List Personnel :=
  ps.filter (fun p => strIncludes (normalizeText p.department) normalizedQuery)

/-- The records sharing an `extension` value with some exact match. -/
def sharesExtensionWithExact (ps : List Personnel) (terms : List String) : List Personnel :=
  ps.filter (fun p => (ps.filter (exactNameMatch terms)).any (fun q => p.extension == q.extension))

/-- The seen-id list produced by first-seen de-duplication. -/
def dedupIds : List Personnel → List String → List String
  | [], seen => seen
  | p :: rest, seen =>
    if seen.contains p.id then dedupIds rest seen
    else dedupIds rest (p.id :: seen)

/-- Whether a string contains a digit. -/
def hasDigitStr (s : String) : Bool :=
  s.data.any Char.isDigit

/-- Whether every character of a string is a digit. -/
def allDigitsStr (s : String) : Bool :=
  s.data.all Char.isDigit

/-- The claim's stop-row antecedent for a data row, given the detected
column map: the row has no name (the name fallback chain resolves to the
empty string), no numeric-looking extension, and some cell's normalized
text contains one of the two sentinel phrases. -/
def stopRowCondition (columnMap : ColumnMap) (row : List Cell) : Bool :=
  let extensionRaw := pickCellText row (uniqueIndices [columnMap.extensionIndex, 1, 0])
  let nameRaw := pickCellText row (uniqueIndices [columnMap.nameIndex, 4, 3])
  nameRaw == "" &&
  (extensionRaw == "" || !isNumericExtension extensionRaw) &&
  (row.map cellToText).any (fun v =>
    strIncludes (normalizeText v) "telefonos internos reserva" ||
      strIncludes (normalizeText v) "reserva 6000")

/-- A sequence of calls to the memoized normalizer, threading the cache. -/
def insertKeys (cache : List (String × String)) (keys : List String) :
    List (String × String) :=
  keys.foldl (fun c k => (cachedNormalizeTextStep c k).1) cache

/-- The `n`-th of a family of pairwise distinct keys (distinguished by
length). -/
def aKey (n : Nat) : String :=
  String.mk (List.replicate (n + 1) 'a')

/-- The first `n` keys of the family. -/
def aKeys (n : Nat) : List String :=
  (List.range n).map aKey

/-! ### Theorems -/

theorem cacheLookup_mem (cache : List (String × String)) (key v : String)
    (h : cacheLookup cache key = some v) : (key, v) ∈ cache := by
  induction cache with
  | nil => simp [cacheLookup] at h
  | cons p rest ih =>
    obtain ⟨k, v'⟩ := p
    by_cases hk : (k == key) = true
    · rw [cacheLookup, if_pos hk] at h
      obtain rfl : v' = v := by injection h
      obtain rfl : k = key := eq_of_beq hk
      exact List.mem_cons_self _ _
    · rw [cacheLookup, if_neg hk] at h
      exact List.mem_cons_of_mem _ (ih h)

theorem cachedNormalizeTextStep_hit (cache : List (String × String)) (text v : String)
    (hl : cacheLookup cache text = some v) :
    cachedNormalizeTextStep cache text = (cache, v) := by
  unfold cachedNormalizeTextStep
  split
  next v' heq => rw [hl] at heq; injection heq with h; rw [h]
  next heq => rw [hl] at heq; cases heq

theorem cachedNormalizeTextStep_miss (cache : List (String × String)) (text : String)
    (hl : cacheLookup cache text = none) (hlen : ¬cache.length > 1000) :
    cachedNormalizeTextStep cache text =
      (cache ++ [(text, normalizeText text)], normalizeText text) := by
  unfold cachedNormalizeTextStep
  split
  next v' heq => rw [hl] at heq; cases heq
  next => rw [if_neg hlen]

theorem cachedNormalizeTextStep_miss_evict (cache : List (String × String)) (text : String)
    (hl : cacheLookup cache text = none) (hlen : cache.length > 1000) :
    cachedNormalizeTextStep cache text =
      (cache.tail ++ [(text, normalizeText text)], normalizeText text) := by
  unfold cachedNormalizeTextStep
  split
  next v' heq => rw [hl] at heq; cases heq
  next => rw [if_pos hlen]

/-- **C10.**  The memoized normalizer returns exactly what the pure
`normalizeText` returns on every input — a hit returns the value a previous
call stored, a miss computes it afresh, and eviction only removes entries —
and coherence of the cache is preserved by every call. -/
theorem c10_cached_normalizer_refines (cache : List (String × String)) (text : String)
    (h : cacheCoherent cache) :
    (cachedNormalizeTextStep cache text).2 = normalizeText text ∧
    cacheCoherent (cachedNormalizeTextStep cache text).1 := by
  cases hl : cacheLookup cache text with
  | some v =>
    rw [cachedNormalizeTextStep_hit cache text v hl]
    exact ⟨h _ (cacheLookup_mem _ _ _ hl), h⟩
  | none =>
    have hnew : ∀ cache₀ : List (String × String), cacheCoherent cache₀ →
        cacheCoherent (cache₀ ++ [(text, normalizeText text)]) := by
      intro cache₀ h₀ p hp
      rcases List.mem_append.mp hp with hp | hp
      · exact h₀ _ hp
      · rw [List.mem_singleton.mp hp]
    by_cases hlen : cache.length > 1000
    · rw [cachedNormalizeTextStep_miss_evict cache text hl hlen]
      exact ⟨rfl, hnew _ (fun p hp => h _ (List.mem_of_mem_tail hp))⟩
    · rw [cachedNormalizeTextStep_miss cache text hl hlen]
      exact ⟨rfl, hnew _ h⟩

theorem c10_witness :
    (cachedNormalizeTextStep [] "Árbol, X").2 = normalizeText "Árbol, X" :=
  (c10_cached_normalizer_refines [] "Árbol, X" (fun p hp => absurd hp (List.not_mem_nil p))).1

theorem cacheLookup_eq_none (cache : List (String × String)) (key : String)
    (h : ∀ p ∈ cache, p.1 ≠ key) : cacheLookup cache key = none := by
  induction cache with
  | nil => rfl
  | cons p rest ih =>
    obtain ⟨k, v⟩ := p
    rw [cacheLookup, if_neg (fun hb => h (k, v) (List.mem_cons_self _ _) (eq_of_beq hb))]
    exact ih (fun q hq => h q (List.mem_cons_of_mem _ hq))

theorem aKey_ne (i j : Nat) (h : i ≠ j) : aKey i ≠ aKey j := by
  intro he
  apply h
  have hlen := congrArg (fun s : String => s.data.length) he
  simpa [aKey] using hlen

theorem insertKeys_aKeys (m : Nat) (hm : m ≤ 1001) :
    insertKeys [] (aKeys m) =
      (List.range m).map (fun i => (aKey i, normalizeText (aKey i))) := by
  induction m with
  | zero => rfl
  | succ n ih =>
    have hsplit : aKeys (n + 1) = aKeys n ++ [aKey n] := by
      simp [aKeys, List.range_succ]
    rw [hsplit]
    unfold insertKeys at ih ⊢
    rw [List.foldl_append, ih (by omega)]
    simp only [List.foldl_cons, List.foldl_nil]
    have hlook :
        cacheLookup ((List.range n).map fun i => (aKey i, normalizeText (aKey i))) (aKey n) =
          none := by
      apply cacheLookup_eq_none
      intro p hp
      obtain ⟨i, hi, rfl⟩ := List.mem_map.mp hp
      exact aKey_ne i n (by simp [List.mem_range] at hi; omega)
    rw [cachedNormalizeTextStep_miss _ _ hlook (by simp; omega)]
    rw [List.range_succ, List.map_append]
    rfl

/-- **C8 (counterexample).**  1001 distinct keys inserted into the empty
memo cache leave 1001 entries in it: the cache does hold more than 1000
entries, refuting the claimed 1000-entry bound. -/
theorem c8_counterexample : 1000 < (insertKeys [] (aKeys 1001)).length := by
  rw [insertKeys_aKeys 1001 (le_refl _)]
  simp

/-- **C8 (amended).**  The memo cache never holds more than 1001 entries:
every call preserves that bound, and on a miss that finds the cache already
over 1000 entries the oldest (first-inserted) key is evicted before the new
key is stored. -/
theorem c8_cache_bound (cache : List (String × String)) (text : String)
    (h : cache.length ≤ 1001) :
    (cachedNormalizeTextStep cache text).1.length ≤ 1001 ∧
    (cacheLookup cache text = none → cache.length > 1000 →
      (cachedNormalizeTextStep cache text).1 =
        cache.tail ++ [(text, normalizeText text)]) := by
  cases hl : cacheLookup cache text with
  | some v =>
    rw [cachedNormalizeTextStep_hit cache text v hl]
    exact ⟨h, fun hnone _ => by cases hnone⟩
  | none =>
    by_cases hlen : cache.length > 1000
    · rw [cachedNormalizeTextStep_miss_evict cache text hl hlen]
      have := List.length_tail cache
      constructor
      · simp only [List.length_append, List.length_cons, List.length_nil]
        omega
      · intro _ _; rfl
    · rw [cachedNormalizeTextStep_miss cache text hl hlen]
      constructor
      · simp only [List.length_append, List.length_cons, List.length_nil]
        omega
      · intro _ hgt; exact absurd hgt hlen

theorem c8_witness : (cachedNormalizeTextStep [] "a").1.length ≤ 1001 :=
  (c8_cache_bound [] "a" (by decide)).1

/-- **C5 (counterexample).**  The query `" a "` has trimmed length 1, yet
the search returns a result over a one-record list: the guard tests the raw
length, not the trimmed length, so this claim fails as stated. -/
theorem c5_counterexample :
    (jsTrim " a ").length < 2 ∧
    filteredResults " a "
        [{ id := "1", name := "Ana Gomez", department := "Ventas", extension := "101",
           searchableName := "ana gomez", searchableExtension := "101" }] ≠ [] := by
  decide

/-- **C5 (amended).**  A query whose raw length is below 2 or whose trimmed
form is empty yields the empty result set (and the search is a total
function, raising no error). -/
theorem c5_short_query_empty (query : String) (ps : List Personnel)
    (h : query.length < 2 ∨ jsTrim query = "") :
    filteredResults query ps = [] := by
  have hc : (jsTrim query == "" || decide (query.length < 2)) = true := by
    rcases h with h | h
    · simp [h]
    · simp [h]
  unfold filteredResults
  rw [if_pos hc]

theorem c5_witness : filteredResults "x" [] = [] :=
  c5_short_query_empty "x" [] (Or.inl (by decide))

/-- **C7.**  A reload that actually parses (no fresh cached payload, no
parse already in flight): on parse failure the cached payload and
modification time are unchanged and the error is recorded; on success the
payload and modification time are replaced and the last error cleared; and
the endpoint surfaces an error-shaped response only when no cached payload
exists — whenever a payload is cached it is served as-is. -/
theorem c7_cache_failure_isolation (c : InternosCache) (force : Bool) (statMtime : Int)
    (token : Nat) (e : ParseError) (payload : CachePayload)
    (hinflight : c.inflight = none)
    (hmiss : force = true ∨ c.payload = none ∨ c.mtimeMs ≠ statMtime) :
    ((refreshRun c force statMtime token (.error e)).1.payload = c.payload ∧
      (refreshRun c force statMtime token (.error e)).1.mtimeMs = c.mtimeMs ∧
      (refreshRun c force statMtime token (.error e)).1.lastError = some e ∧
      (refreshRun c force statMtime token (.error e)).1.inflight = none) ∧
    ((refreshRun c force statMtime token (.ok payload)).1 =
      { mtimeMs := statMtime, payload := some payload, inflight := none, lastError := none }) ∧
    (∀ c' : InternosCache, ∀ p : CachePayload,
      c'.payload = some p → internosEndpoint c' = .okPayload p) := by
  have hcond : (!force && c.payload.isSome && c.mtimeMs == statMtime) = false := by
    rcases hmiss with h | h | h
    · simp [h]
    · simp [h]
    · simp [beq_eq_false_iff_ne.mpr h]
  have hrun : ∀ res : Except ParseError CachePayload,
      refreshRun c force statMtime token res =
        (refreshComplete { c with inflight := some token } statMtime res, .completed res) := by
    intro res
    unfold refreshRun refreshEnter
    rw [hcond, hinflight]
    rfl
  refine ⟨?_, ?_, ?_⟩
  · rw [hrun]
    simp [refreshComplete]
  · rw [hrun]
    simp [refreshComplete]
  · intro c' p hp
    unfold internosEndpoint
    rw [hp]

theorem c7_witness :
    (refreshRun ⟨0, none, none, none⟩ true 5 1 (Except.error ParseError.enoent)).1.lastError =
      some ParseError.enoent :=
  (c7_cache_failure_isolation ⟨0, none, none, none⟩ true 5 1 ParseError.enoent ⟨[]⟩ rfl
      (Or.inl rfl)).1.2.2.1

/-- **C9.**  Single-flight coalescing: starting from a cache with no parse
in flight, the first of two reload invocations (modelled by the atomic
guard-and-install segment each call runs after its `stat`) starts the one
parse and installs it as in-flight, and the second invocation — entering
before the first completes — joins that same parse instead of starting
another, leaving the state unchanged; so exactly one decode/extraction pass
is performed. -/
theorem c9_single_flight (c : InternosCache) (m1 m2 : Int) (t1 t2 : Nat)
    (h : c.inflight = none) :
    refreshEnter c true m1 t1 = ({ c with inflight := some t1 }, .started t1) ∧
    refreshEnter { c with inflight := some t1 } true m2 t2 =
      ({ c with inflight := some t1 }, .joined t1) := by
  constructor
  · unfold refreshEnter
    rw [h]
    rfl
  · unfold refreshEnter
    rfl

theorem c9_witness :
    refreshEnter { mtimeMs := 0, payload := none, inflight := some 7, lastError := none }
        true 3 8 =
      ({ mtimeMs := 0, payload := none, inflight := some 7, lastError := none },
        EnterOutcome.joined 7) :=
  (c9_single_flight ⟨0, none, none, none⟩ 3 3 7 8 rfl).2

theorem dropWhile_length_le (p : Char → Bool) (cs : List Char) :
    (cs.dropWhile p).length ≤ cs.length := by
  induction cs with
  | nil => simp [List.dropWhile]
  | cons c rest ih =>
    by_cases h : p c
    · simp only [List.dropWhile, h]
      exact Nat.le_succ_of_le ih
    · simp [List.dropWhile, h]

theorem jsTrim_length_le (s : String) : (jsTrim s).length ≤ s.length := by
  show (trimChars s.data).length ≤ s.data.length
  unfold trimChars
  calc ((s.data.dropWhile isJsSpace).reverse.dropWhile isJsSpace).reverse.length
      = ((s.data.dropWhile isJsSpace).reverse.dropWhile isJsSpace).length := by
        rw [List.length_reverse]
    _ ≤ (s.data.dropWhile isJsSpace).reverse.length := dropWhile_length_le _ _
    _ = (s.data.dropWhile isJsSpace).length := by rw [List.length_reverse]
    _ ≤ s.data.length := dropWhile_length_le _ _

theorem listIsPrefixOf_iff (a b : List Char) : listIsPrefixOf a b = true ↔ IsPrefixP a b := by
  induction a generalizing b with
  | nil => simp [listIsPrefixOf, IsPrefixP]
  | cons x xs ih =>
    cases b with
    | nil => simp [listIsPrefixOf, IsPrefixP]
    | cons y ys =>
      simp only [listIsPrefixOf, Bool.and_eq_true, beq_iff_eq, ih]
      constructor
      · rintro ⟨rfl, t, rfl⟩
        exact ⟨t, rfl⟩
      · rintro ⟨t, ht⟩
        injection ht with h1 h2
        exact ⟨h1, t, h2⟩

theorem listIsInfixOf_iff (a b : List Char) : listIsInfixOf a b = true ↔ IsInfixP a b := by
  induction b with
  | nil =>
    simp only [listIsInfixOf, List.isEmpty_iff, IsInfixP]
    constructor
    · rintro rfl
      exact ⟨[], [], rfl⟩
    · rintro ⟨s, t, h⟩
      rcases List.append_eq_nil.mp h with ⟨h1, -⟩
      exact (List.append_eq_nil.mp h1).2
  | cons y ys ih =>
    simp only [listIsInfixOf, Bool.or_eq_true, listIsPrefixOf_iff, ih, IsPrefixP, IsInfixP]
    constructor
    · rintro (⟨t, ht⟩ | ⟨s, t, ht⟩)
      · exact ⟨[], t, by simpa using ht⟩
      · exact ⟨y :: s, t, by simp [ht]⟩
    · rintro ⟨s, t, ht⟩
      cases s with
      | nil => exact Or.inl ⟨t, by simpa using ht⟩
      | cons z zs =>
        injection ht with h1 h2
        exact Or.inr ⟨zs, t, h2⟩

/-- **C4.**  For a query of trimmed length at least 2 whose
whitespace-stripped normalized variant is nonempty and purely numeric, the
search returns exactly the records whose `searchableExtension` contains that
digit string as a substring (the name/department branches are not taken),
where containment is genuine substring occurrence. -/
theorem c4_numeric_extension_search (query : String) (ps : List Personnel)
    (h2 : 2 ≤ (jsTrim query).length)
    (hne : numericVariant query ≠ "")
    (hdig : (numericVariant query).data.all Char.isDigit = true) :
    ((filteredResults query ps).map (fun r => r.person) =
      ps.filter (fun p => strIncludes p.searchableExtension (numericVariant query))) ∧
    (∀ p : Personnel,
      strIncludes p.searchableExtension (numericVariant query) = true ↔
        IsInfixP (numericVariant query).data p.searchableExtension.data) := by
  constructor
  · have htrim_ne : (jsTrim query == "") = false := by
      rw [beq_eq_false_iff_ne]
      intro h
      rw [h] at h2
      simp at h2
    have hlen : ¬query.length < 2 := by
      have := jsTrim_length_le query
      omega
    have hguard : (jsTrim query == "" || decide (query.length < 2)) = false := by
      rw [htrim_ne, decide_eq_false hlen]
      rfl
    have hnum : (numericVariant query != "" && (numericVariant query).data.all Char.isDigit) =
        true := by
      rw [hdig, Bool.and_true, bne_iff_ne]
      exact hne
    unfold filteredResults
    rw [if_neg (by rw [hguard]; exact Bool.false_ne_true)]
    simp only []
    rw [if_pos (by exact hnum)]
    rw [List.map_map]
    exact List.map_id _
  · intro p
    exact listIsInfixOf_iff _ _

theorem c4_witness :
    (filteredResults "101"
        [{ id := "1", name := "Juan Perez", department := "Ventas", extension := "101",
           searchableName := "juan perez", searchableExtension := "101" },
         { id := "2", name := "Maria Lopez", department := "Compras", extension := "202",
           searchableName := "maria lopez", searchableExtension := "202" }]).map
        (fun r => r.person) =
      [{ id := "1", name := "Juan Perez", department := "Ventas", extension := "101",
         searchableName := "juan perez", searchableExtension := "101" },
       { id := "2", name := "Maria Lopez", department := "Compras", extension := "202",
         searchableName := "maria lopez", searchableExtension := "202" }].filter
        (fun p => strIncludes p.searchableExtension (numericVariant "101")) :=
  (c4_numeric_extension_search "101" _ (by decide) (by decide) (by decide)).1

theorem mem_processRows (cmap : ColumnMap) (rows : List (List Cell)) (idNum : Nat)
    (r : Personnel) (hr : r ∈ processRows cmap rows idNum) :
    ∃ i name dept extVal, r = buildRecord i name dept extVal := by
  induction rows generalizing idNum with
  | nil => simp [processRows] at hr
  | cons row rest ih =>
    rw [processRows] at hr
    split at hr
    · exact ih _ hr
    · simp at hr
    · rcases List.mem_append.mp hr with h | h
      · obtain ⟨p, _, rfl⟩ := List.mem_map.mp h
        exact ⟨_, _, _, _, rfl⟩
      · exact ih _ h

theorem allDigits_mono (s : String) (h : allDigitsStr s = true) :
    s.data.all (fun c => c.isDigit || ('a' ≤ c && c ≤ 'z')) = true := by
  rw [allDigitsStr, List.all_eq_true] at h
  rw [List.all_eq_true]
  intro c hc
  rw [h c hc]
  rfl

/-- **C6 (amended).**  Every emitted record has `searchableName` equal to
the normalized `name`; `searchableExtension` is digits-only whenever
`extension` contains a digit, and otherwise is the lowercase raw extension
value — which is the lowercase `extension` field except for absent
extensions, where `extension` is the `"N/A"` placeholder while
`searchableExtension` is the empty string; and an all-digit
`searchableExtension` contains only characters in `[0-9a-z]`. -/
theorem c6_searchable_invariant (rawData : List (List Cell)) (r : Personnel)
    (hr : r ∈ processExcelData rawData) :
    r.searchableName = normalizeText r.name ∧
    (hasDigitStr r.extension = true → allDigitsStr r.searchableExtension = true) ∧
    (hasDigitStr r.extension = false →
      r.searchableExtension = jsToLowerStr r.extension ∨
        (r.extension = "N/A" ∧ r.searchableExtension = "")) ∧
    (allDigitsStr r.searchableExtension = true →
      r.searchableExtension.data.all (fun c => c.isDigit || ('a' ≤ c && c ≤ 'z')) = true) := by
  unfold processExcelData at hr
  obtain ⟨i, name, dept, extVal, rfl⟩ := mem_processRows _ _ _ r hr
  refine ⟨rfl, ?_, ?_, fun h => allDigits_mono _ h⟩
  · intro hdig
    by_cases he : (extVal == "") = true
    · have : extVal = "" := eq_of_beq he
      subst this
      simp [buildRecord, hasDigitStr] at hdig
    · have hext : (buildRecord i name dept extVal).extension = extVal := by
        simp [buildRecord, he]
      rw [hext] at hdig
      rw [hasDigitStr, List.any_eq_true] at hdig
      obtain ⟨c, hc, hcd⟩ := hdig
      have hfil : extVal.data.filter Char.isDigit ≠ [] := by
        intro hnil
        exact absurd hcd (by simpa using (List.filter_eq_nil_iff.mp hnil) c hc)
      show allDigitsStr (normalizeExtensionSearch extVal) = true
      unfold normalizeExtensionSearch
      rw [if_neg (by simpa [List.isEmpty_iff] using hfil)]
      rw [allDigitsStr, List.all_eq_true]
      intro c' hc'
      exact (List.mem_filter.mp hc').2
  · intro hnodig
    by_cases he : (extVal == "") = true
    · have : extVal = "" := eq_of_beq he
      subst this
      exact Or.inr ⟨rfl, rfl⟩
    · left
      have hext : (buildRecord i name dept extVal).extension = extVal := by
        simp [buildRecord, he]
      rw [hext] at hnodig ⊢
      rw [hasDigitStr] at hnodig
      have hfil : extVal.data.filter Char.isDigit = [] := by
        rw [List.filter_eq_nil_iff]
        intro c hc hcd
        have : extVal.data.any Char.isDigit = true := List.any_eq_true.mpr ⟨c, hc, hcd⟩
        rw [this] at hnodig
        cases hnodig
      show normalizeExtensionSearch extVal = jsToLowerStr extVal
      unfold normalizeExtensionSearch
      rw [if_pos (by simp [List.isEmpty_iff, hfil])]

/-- **C6 (counterexample).**  A row with a name but no extension produces a
record with `extension = "N/A"` and `searchableExtension = ""`, which is not
the lowercase of the `extension` field (`"n/a"`): the claim as stated fails
for absent extensions. -/
theorem c6_counterexample :
    processExcelData
        [[Cell.str "", Cell.str "", Cell.str "Ventas", Cell.str "", Cell.str "Juan Perez"]] =
      [{ id := "1", name := "Juan Perez", department := "Ventas", extension := "N/A",
         searchableName := "juan perez", searchableExtension := "" }] ∧
    hasDigitStr "N/A" = false ∧ ("" : String) ≠ jsToLowerStr "N/A" := by
  decide

theorem c6_witness :
    ({ id := "1", name := "Juan Perez", department := "Ventas", extension := "N/A",
       searchableName := "juan perez", searchableExtension := "" } : Personnel).searchableName =
      normalizeText
        ({ id := "1", name := "Juan Perez", department := "Ventas", extension := "N/A",
           searchableName := "juan perez", searchableExtension := "" } : Personnel).name :=
  (c6_searchable_invariant
      [[Cell.str "", Cell.str "", Cell.str "Ventas", Cell.str "", Cell.str "Juan Perez"]]
      { id := "1", name := "Juan Perez", department := "Ventas", extension := "N/A",
        searchableName := "juan perez", searchableExtension := "" }
      (by decide)).1

theorem shouldStopProcessing_true (values : List String) (hN hE : Bool)
    (hn : hN = false) (he : hE = false)
    (v : String) (hv : v ∈ values)
    (hinc : strIncludes (normalizeText v) "telefonos internos reserva" = true ∨
      strIncludes (normalizeText v) "reserva 6000" = true) :
    shouldStopProcessing values hN hE = true := by
  subst hn he
  unfold shouldStopProcessing
  rw [if_neg (by simp)]
  rw [List.any_eq_true]
  refine ⟨v, hv, ?_⟩
  have hvne : (v == "") = false := by
    rw [beq_eq_false_iff_ne]
    rintro rfl
    rcases hinc with h | h <;> revert h <;> decide
  rw [if_neg (by rw [hvne]; exact Bool.false_ne_true)]
  have hnorm_ne : normalizeText v ≠ "" := by
    intro h0
    rw [h0] at hinc
    rcases hinc with h | h <;> revert h <;> decide
  rw [Bool.and_eq_true]
  constructor
  · rw [decide_eq_true_eq]
    have hdata : (normalizeText v).data ≠ [] := by
      intro hnil
      exact hnorm_ne (String.ext_iff.mpr (by rw [hnil]))
    exact List.length_pos.mpr hdata
  · rw [List.any_eq_true]
    rcases hinc with h | h
    · refine ⟨normalizeText "telefonos internos reserva", by simp [stopTokens], ?_⟩
      rw [show normalizeText "telefonos internos reserva" = "telefonos internos reserva" from by
        decide]
      exact h
    · refine ⟨normalizeText "reserva 6000", by simp [stopTokens], ?_⟩
      rw [show normalizeText "reserva 6000" = "reserva 6000" from by decide]
      exact h

theorem stopRow_not_all_falsy (cmap : ColumnMap) (row : List Cell)
    (hstop : stopRowCondition cmap row = true) : row.all Cell.isFalsy = false := by
  unfold stopRowCondition at hstop
  rw [Bool.and_eq_true, Bool.and_eq_true] at hstop
  obtain ⟨⟨-, -⟩, hsent⟩ := hstop
  rw [List.any_eq_true] at hsent
  obtain ⟨v, hv, hvinc⟩ := hsent
  obtain ⟨cell, hcell, rfl⟩ := List.mem_map.mp hv
  by_contra hall
  rw [Bool.not_eq_false, List.all_eq_true] at hall
  have hf := hall cell hcell
  cases cell with
  | str s =>
    have hs : s = "" := eq_of_beq hf
    subst hs
    revert hvinc
    decide
  | num n =>
    have hn : n = 0 := by simpa [Cell.isFalsy] using hf
    subst hn
    revert hvinc
    decide
  | empty =>
    revert hvinc
    decide

theorem rowAction_stop (cmap : ColumnMap) (row : List Cell)
    (hstop : stopRowCondition cmap row = true)
    (hnh : repeatedHeaderRow ((row.map cellToText).map normalizeText) = false) :
    rowAction cmap row = .stop := by
  have hfalsy := stopRow_not_all_falsy cmap row hstop
  unfold stopRowCondition at hstop
  rw [Bool.and_eq_true, Bool.and_eq_true] at hstop
  obtain ⟨⟨hname, hnum⟩, hsent⟩ := hstop
  have hnr : pickCellText row (uniqueIndices [cmap.nameIndex, 4, 3]) = "" := eq_of_beq hname
  rw [List.any_eq_true] at hsent
  obtain ⟨v, hv, hvinc⟩ := hsent
  rw [Bool.or_eq_true] at hvinc
  unfold rowAction
  rw [hfalsy]
  simp only [Bool.false_eq_true, if_false, hnh]
  rw [if_pos ?stopfires]
  case stopfires =>
    apply shouldStopProcessing_true _ _ _ ?_ ?_ v hv hvinc
    · rw [hnr]
      decide
    · rw [Bool.or_eq_true] at hnum
      rcases hnum with h | h
      · rw [eq_of_beq h]
        decide
      · rw [Bool.not_eq_true'] at h
        by_cases hne :
            (pickCellText row (uniqueIndices [cmap.extensionIndex, 1, 0]) != "") = true
        · rw [if_pos hne]
          exact h
        · rw [if_neg hne]

theorem processRows_append_stop (cmap : ColumnMap) (pre : List (List Cell)) (row : List Cell)
    (post : List (List Cell)) (idNum : Nat) (h : rowAction cmap row = .stop) :
    processRows cmap (pre ++ row :: post) idNum = processRows cmap pre idNum := by
  induction pre generalizing idNum with
  | nil =>
    simp only [List.nil_append, processRows, h]
  | cons r rest ih =>
    simp only [List.cons_append, processRows]
    cases ha : rowAction cmap r with
    | skip => exact ih idNum
    | stop => rfl
    | emit names dept ext =>
      show buildRecords idNum names dept ext ++
          processRows cmap (rest ++ row :: post) (idNum + names.length) =
        buildRecords idNum names dept ext ++ processRows cmap rest (idNum + names.length)
      rw [ih]

/-- **C2 (amended).**  Once the row extractor reaches a data row that is not
skipped by the repeated-header filter, has no name and no numeric-looking
extension, and in which some cell's normalized text contains one of the two
sentinel phrases, no record is emitted for that row or for any later row of
the grid.  (A row skipped as all-empty cannot satisfy the sentinel
condition, so only the repeated-header exclusion must be added to the
original claim.) -/
theorem c2_stop_sentinel (cmap : ColumnMap) (pre : List (List Cell)) (row : List Cell)
    (post : List (List Cell)) (idNum : Nat)
    (hstop : stopRowCondition cmap row = true)
    (hnh : repeatedHeaderRow ((row.map cellToText).map normalizeText) = false) :
    processRows cmap (pre ++ row :: post) idNum = processRows cmap pre idNum :=
  processRows_append_stop cmap pre row post idNum (rowAction_stop cmap row hstop hnh)

theorem c2_witness :
    processRows defaultColumnMap
        ([[Cell.str "", Cell.str "101", Cell.str "Ventas", Cell.str "", Cell.str "Juan Perez"]] ++
          [Cell.str "TELEFONOS INTERNOS RESERVA"] ::
            [[Cell.str "", Cell.str "102", Cell.str "Deposito", Cell.str "",
              Cell.str "Maria Lopez"]]) 1 =
      processRows defaultColumnMap
        [[Cell.str "", Cell.str "101", Cell.str "Ventas", Cell.str "", Cell.str "Juan Perez"]]
        1 :=
  c2_stop_sentinel defaultColumnMap
    [[Cell.str "", Cell.str "101", Cell.str "Ventas", Cell.str "", Cell.str "Juan Perez"]]
    [Cell.str "TELEFONOS INTERNOS RESERVA"]
    [[Cell.str "", Cell.str "102", Cell.str "Deposito", Cell.str "", Cell.str "Maria Lopez"]]
    1 (by decide) (by decide)

/-- **C2 (counterexample).**  In this grid, data row 1 (the first row after
the detected header) satisfies the claim's antecedent — it has no name, no
numeric-looking extension, and its only cell's normalized text contains the
sentinel phrase "telefonos internos reserva" — yet the extractor still emits
a record for the later row 2, because the sentinel row is skipped by the
repeated-header filter (its text also contains the dictionary tokens
"nombre" and "interno") before the stop check is reached. -/
theorem c2_counterexample :
    detectHeaderMapping
        [[Cell.str "INTERNO", Cell.str "", Cell.str "", Cell.str "",
          Cell.str "APELLIDO Y NOMBRE"],
         [Cell.str "TELEFONOS INTERNOS RESERVA NOMBRE"],
         [Cell.str "", Cell.str "101", Cell.str "Ventas", Cell.str "", Cell.str "Juan Perez"]] =
      (0, ⟨0, -1, -1, 4⟩) ∧
    stopRowCondition ⟨0, -1, -1, 4⟩ [Cell.str "TELEFONOS INTERNOS RESERVA NOMBRE"] = true ∧
    processExcelData
        [[Cell.str "INTERNO", Cell.str "", Cell.str "", Cell.str "",
          Cell.str "APELLIDO Y NOMBRE"],
         [Cell.str "TELEFONOS INTERNOS RESERVA NOMBRE"],
         [Cell.str "", Cell.str "101", Cell.str "Ventas", Cell.str "", Cell.str "Juan Perez"]] =
      [{ id := "1", name := "Juan Perez", department := "Ventas", extension := "101",
         searchableName := "juan perez", searchableExtension := "101" }] := by
  decide

theorem contains_map_extension (l : List Personnel) (x : String) :
    ((l.map (fun q => q.extension)).contains x) = l.any (fun q => x == q.extension) := by
  induction l with
  | nil => rfl
  | cons a l ih => rw [List.map_cons, List.contains_cons, ih, List.any_cons]

theorem addResults_eq (items : List Personnel) :
    ∀ seen results, addResults (seen, results) items =
      (dedupIds items seen, results ++ dedupById items seen) := by
  induction items with
  | nil =>
    intro seen results
    simp [addResults, dedupIds, dedupById]
  | cons p rest ih =>
    intro seen results
    cases hc : seen.contains p.id with
    | true =>
      simp only [addResults, dedupIds, dedupById, hc, if_true]
      exact ih seen results
    | false =>
      simp only [addResults, dedupIds, dedupById, hc, Bool.false_eq_true, if_false]
      rw [ih]
      simp

theorem dedupById_append (xs ys : List Personnel) :
    ∀ seen, dedupById (xs ++ ys) seen = dedupById xs seen ++ dedupById ys (dedupIds xs seen) := by
  induction xs with
  | nil =>
    intro seen
    simp [dedupById, dedupIds]
  | cons p rest ih =>
    intro seen
    cases hc : seen.contains p.id with
    | true =>
      simp only [List.cons_append, dedupById, dedupIds, hc, if_true]
      exact ih _
    | false =>
      simp only [List.cons_append, dedupById, dedupIds, hc, Bool.false_eq_true, if_false,
        List.append_eq]
      rw [ih]
theorem map_scored_map_person (l : List Personnel) (st : List String) (nq : String) :
    ((l.map (fun p =>
      ({ person := p
         searchTerms := st
         searchScore := computeSearchScore p nq st } : ScoredPersonnel))).map
      (fun r => r.person)) = l := by
  induction l with
  | nil => rfl
  | cons a l ih =>
    simp only [List.map_cons]
    rw [ih]

/-- **C3 (amended).**  In the name/department search, whenever the set of
exact matches (records where every query term equals or is a prefix of some
whitespace-delimited token of `searchableName`) is non-empty, the result is
exactly the records whose extension equals the extension of some exact
match, followed — when the query has exactly one term and some record's
normalized department contains the normalized query — by those department
matches, de-duplicated by id in first-seen order; the second conjunct ties
the boolean exact-match test to the claim's prefix wording, and the third is
the claim's concrete example, in which "Juan Perez" scores 2 and "Ana
Gomez" 0. -/
theorem c3_extension_expansion (query : String) (ps : List Personnel)
    (h1 : jsTrim query ≠ "")
    (h2 : ¬query.length < 2)
    (hnn : ¬(numericVariant query ≠ "" ∧ (numericVariant query).data.all Char.isDigit = true))
    (hex : ps.filter (exactNameMatch (searchTermsOf query)) ≠ []) :
    ((filteredResults query ps).map (fun r => r.person) =
      dedupById
        (sharesExtensionWithExact ps (searchTermsOf query) ++
          (if departmentMatchesOf ps (normalizeText (jsTrim query)) ≠ [] ∧
              (searchTermsOf query).length = 1 then
            departmentMatchesOf ps (normalizeText (jsTrim query))
          else [])) []) ∧
    (∀ p : Personnel, exactNameMatch (searchTermsOf query) p = true ↔
      ∀ t ∈ searchTermsOf query, ∃ w ∈ splitWords p.searchableName, IsPrefixP t.data w.data) ∧
    filteredResults "perez"
        [{ id := "1", name := "Juan Perez", department := "Sector A", extension := "101",
           searchableName := "juan perez", searchableExtension := "101" },
         { id := "2", name := "Ana Gomez", department := "Sector A", extension := "101",
           searchableName := "ana gomez", searchableExtension := "101" }] =
      [{ person := { id := "1", name := "Juan Perez", department := "Sector A",
                     extension := "101", searchableName := "juan perez",
                     searchableExtension := "101" }
         searchTerms := ["perez"], searchScore := 2 },
       { person := { id := "2", name := "Ana Gomez", department := "Sector A",
                     extension := "101", searchableName := "ana gomez",
                     searchableExtension := "101" }
         searchTerms := ["perez"], searchScore := 0 }] := by
  refine ⟨?_, ?_, by decide⟩
  case refine_2 =>
    intro p
    unfold exactNameMatch
    rw [List.all_eq_true]
    constructor
    · intro h t ht
      have hh := h t ht
      rw [List.any_eq_true] at hh
      obtain ⟨w, hw, hww⟩ := hh
      rw [Bool.or_eq_true] at hww
      refine ⟨w, hw, ?_⟩
      rcases hww with hs | hb
      · exact (listIsPrefixOf_iff _ _).mp hs
      · rw [eq_of_beq hb]
        exact ⟨[], List.append_nil _⟩
    · intro h t ht
      obtain ⟨w, hw, hpre⟩ := h t ht
      rw [List.any_eq_true]
      exact ⟨w, hw, by
        rw [Bool.or_eq_true]
        exact Or.inl ((listIsPrefixOf_iff _ _).mpr hpre)⟩
  case refine_1 =>
    have hexb : (ps.filter (exactNameMatch (searchTermsOf query))).isEmpty = false :=
      List.isEmpty_eq_false.mpr hex
    have hfilters :
        ps.filter (fun p =>
          (((ps.filter (exactNameMatch (searchTermsOf query))).map (fun q => q.extension)).contains
            p.extension)) = sharesExtensionWithExact ps (searchTermsOf query) := by
      unfold sharesExtensionWithExact
      apply List.filter_congr
      intro p _
      rw [contains_map_extension]
    by_cases hd : departmentMatchesOf ps (normalizeText (jsTrim query)) ≠ [] ∧
        (searchTermsOf query).length = 1
    · rw [if_pos hd]
      unfold filteredResults
      split
      next hguard =>
        exfalso
        rw [Bool.or_eq_true] at hguard
        rcases hguard with hg | hg
        · exact h1 (eq_of_beq hg)
        · exact h2 (of_decide_eq_true hg)
      next hguard =>
        simp only []
        split
        next hnum =>
          exfalso
          rw [Bool.and_eq_true] at hnum
          exact hnn ⟨bne_iff_ne.mp hnum.1, hnum.2⟩
        next hnum =>
          split
          next hdt =>
            split
            next hext =>
              show (((addResults
                  (addResults ([], [])
                    (ps.filter (fun p =>
                      (((ps.filter (exactNameMatch (searchTermsOf query))).map
                        (fun q => q.extension)).contains p.extension))))
                  (departmentMatchesOf ps (normalizeText (jsTrim query)))).2.map
                    (fun p =>
                      ({ person := p
                         searchTerms := searchTermsOf query
                         searchScore := computeSearchScore p (normalizeText (jsTrim query))
                           (searchTermsOf query) } : ScoredPersonnel))).map (fun r => r.person)) =
                dedupById (sharesExtensionWithExact ps (searchTermsOf query) ++
                  departmentMatchesOf ps (normalizeText (jsTrim query))) []
              rw [map_scored_map_person, addResults_eq, addResults_eq, dedupById_append]
              simp only [List.nil_append]
              rw [hfilters]
            next hext =>
              exfalso
              rw [Bool.not_eq_true, Bool.not_eq_false'] at hext
              have hco : (ps.filter (exactNameMatch (searchTermsOf query))).isEmpty = true := hext
              simp [hco] at hexb
          next hdt =>
            exfalso
            rw [Bool.not_eq_true, Bool.and_eq_false_iff] at hdt
            rcases hdt with hdm | hlen
            · rw [Bool.not_eq_false'] at hdm
              have hco : (departmentMatchesOf ps (normalizeText (jsTrim query))).isEmpty = true :=
                hdm
              exact hd.1 (List.isEmpty_iff.mp hco)
            · have hco : ((searchTermsOf query).length == 1) = false := hlen
              exact beq_eq_false_iff_ne.mp hco hd.2
    · rw [if_neg hd]
      unfold filteredResults
      split
      next hguard =>
        exfalso
        rw [Bool.or_eq_true] at hguard
        rcases hguard with hg | hg
        · exact h1 (eq_of_beq hg)
        · exact h2 (of_decide_eq_true hg)
      next hguard =>
        simp only []
        split
        next hnum =>
          exfalso
          rw [Bool.and_eq_true] at hnum
          exact hnn ⟨bne_iff_ne.mp hnum.1, hnum.2⟩
        next hnum =>
          split
          next hdt =>
            exfalso
            rw [Bool.and_eq_true] at hdt
            apply hd
            constructor
            · rw [Bool.not_eq_true'] at hdt
              have hco : (departmentMatchesOf ps (normalizeText (jsTrim query))).isEmpty = false :=
                hdt.1
              exact List.isEmpty_eq_false.mp hco
            · have hco : ((searchTermsOf query).length == 1) = true := hdt.2
              exact eq_of_beq hco
          next hdt =>
            split
            next hext =>
              show (((addResults ([], [])
                  (ps.filter (fun p =>
                    (((ps.filter (exactNameMatch (searchTermsOf query))).map
                      (fun q => q.extension)).contains p.extension)))).2.map
                    (fun p =>
                      ({ person := p
                         searchTerms := searchTermsOf query
                         searchScore := computeSearchScore p (normalizeText (jsTrim query))
                           (searchTermsOf query) } : ScoredPersonnel))).map (fun r => r.person)) =
                dedupById (sharesExtensionWithExact ps (searchTermsOf query) ++ []) []
              rw [List.append_nil, map_scored_map_person, addResults_eq]
              simp only [List.nil_append]
              rw [hfilters]
            next hext =>
              exfalso
              rw [Bool.not_eq_true, Bool.not_eq_false'] at hext
              have hco : (ps.filter (exactNameMatch (searchTermsOf query))).isEmpty = true := hext
              simp [hco] at hexb

/-- **C3 (counterexample).**  With a single-term query, a record whose
normalized department contains the query is added to the result even though
it shares no extension with any exact match: the result is not "exactly the
records whose extension value equals the extension of some exact match". -/
theorem c3_counterexample :
    (filteredResults "perez"
        [{ id := "1", name := "Juan Perez", department := "Ventas", extension := "101",
           searchableName := "juan perez", searchableExtension := "101" },
         { id := "2", name := "Ana Gomez", department := "Sucursal Perez", extension := "202",
           searchableName := "ana gomez", searchableExtension := "202" }]).map
        (fun r => r.person) =
      [{ id := "1", name := "Juan Perez", department := "Ventas", extension := "101",
         searchableName := "juan perez", searchableExtension := "101" },
       { id := "2", name := "Ana Gomez", department := "Sucursal Perez", extension := "202",
         searchableName := "ana gomez", searchableExtension := "202" }] ∧
    sharesExtensionWithExact
        [{ id := "1", name := "Juan Perez", department := "Ventas", extension := "101",
           searchableName := "juan perez", searchableExtension := "101" },
         { id := "2", name := "Ana Gomez", department := "Sucursal Perez", extension := "202",
           searchableName := "ana gomez", searchableExtension := "202" }]
        (searchTermsOf "perez") =
      [{ id := "1", name := "Juan Perez", department := "Ventas", extension := "101",
         searchableName := "juan perez", searchableExtension := "101" }] := by
  decide

theorem c3_witness :
    (filteredResults "perez"
        [{ id := "1", name := "Juan Perez", department := "Sector A", extension := "101",
           searchableName := "juan perez", searchableExtension := "101" },
         { id := "2", name := "Ana Gomez", department := "Sector A", extension := "101",
           searchableName := "ana gomez", searchableExtension := "101" }]).map
        (fun r => r.person) =
      dedupById
        (sharesExtensionWithExact
            [{ id := "1", name := "Juan Perez", department := "Sector A", extension := "101",
               searchableName := "juan perez", searchableExtension := "101" },
             { id := "2", name := "Ana Gomez", department := "Sector A", extension := "101",
               searchableName := "ana gomez", searchableExtension := "101" }]
            (searchTermsOf "perez") ++
          (if departmentMatchesOf
                [{ id := "1", name := "Juan Perez", department := "Sector A", extension := "101",
                   searchableName := "juan perez", searchableExtension := "101" },
                 { id := "2", name := "Ana Gomez", department := "Sector A", extension := "101",
                   searchableName := "ana gomez", searchableExtension := "101" }]
                (normalizeText (jsTrim "perez")) ≠ [] ∧
              (searchTermsOf "perez").length = 1 then
            departmentMatchesOf
              [{ id := "1", name := "Juan Perez", department := "Sector A", extension := "101",
                 searchableName := "juan perez", searchableExtension := "101" },
               { id := "2", name := "Ana Gomez", department := "Sector A", extension := "101",
                 searchableName := "ana gomez", searchableExtension := "101" }]
              (normalizeText (jsTrim "perez"))
          else [])) [] :=
  (c3_extension_expansion "perez"
      [{ id := "1", name := "Juan Perez", department := "Sector A", extension := "101",
         searchableName := "juan perez", searchableExtension := "101" },
       { id := "2", name := "Ana Gomez", department := "Sector A", extension := "101",
         searchableName := "ana gomez", searchableExtension := "101" }]
      (by decide) (by decide) (by decide) (by decide)).1

theorem findIdx?_start_shift {α : Type} (p : α → Bool) (l : List α) (i : Nat) :
    List.findIdx? p l i = (List.findIdx? p l 0).map (fun j => i + j) := by
  induction l generalizing i with
  | nil => simp [List.findIdx?_nil]
  | cons x xs ih =>
    rw [List.findIdx?_cons, List.findIdx?_cons]
    by_cases hp : p x = true
    · simp [hp]
    · rw [if_neg hp, if_neg hp, ih (i + 1), ih 1, Option.map_map]
      have hfun : (fun j => i + 1 + j) = ((fun j => i + j) ∘ fun j => 1 + j) := by
        funext j
        simp only [Function.comp]
        omega
      rw [hfun]

theorem updateScan_foundExtension (st : HeaderScan) (idx : Nat) (n : String) :
    (updateScan st idx n).foundExtension =
      (st.foundExtension || (!(n == "") && matchesHeaderToken n extensionTokens)) := by
  by_cases hn : (n == "") = true <;> simp [updateScan, hn]

theorem updateScan_foundDepartment (st : HeaderScan) (idx : Nat) (n : String) :
    (updateScan st idx n).foundDepartment =
      (st.foundDepartment || (!(n == "") && matchesHeaderToken n departmentTokens)) := by
  by_cases hn : (n == "") = true <;> simp [updateScan, hn]

theorem updateScan_foundTitle (st : HeaderScan) (idx : Nat) (n : String) :
    (updateScan st idx n).foundTitle =
      (st.foundTitle || (!(n == "") && matchesHeaderToken n titleTokens)) := by
  by_cases hn : (n == "") = true <;> simp [updateScan, hn]

theorem updateScan_foundName (st : HeaderScan) (idx : Nat) (n : String) :
    (updateScan st idx n).foundName =
      (st.foundName || (!(n == "") && matchesHeaderToken n nameTokens)) := by
  by_cases hn : (n == "") = true <;> simp [updateScan, hn]

theorem updateScan_extensionIndex (st : HeaderScan) (idx : Nat) (n : String) :
    (updateScan st idx n).map.extensionIndex =
      (if (!st.foundExtension && (!(n == "") && matchesHeaderToken n extensionTokens)) = true
        then Int.ofNat idx else st.map.extensionIndex) := by
  by_cases hn : (n == "") = true <;> by_cases hst : st.foundExtension <;>
    by_cases hm : matchesHeaderToken n extensionTokens = true <;>
    simp [updateScan, hn, hst, hm]

theorem updateScan_departmentIndex (st : HeaderScan) (idx : Nat) (n : String) :
    (updateScan st idx n).map.departmentIndex =
      (if (!st.foundDepartment && (!(n == "") && matchesHeaderToken n departmentTokens)) = true
        then Int.ofNat idx else st.map.departmentIndex) := by
  by_cases hn : (n == "") = true <;> by_cases hst : st.foundDepartment <;>
    by_cases hm : matchesHeaderToken n departmentTokens = true <;>
    simp [updateScan, hn, hst, hm]

theorem updateScan_titleIndex (st : HeaderScan) (idx : Nat) (n : String) :
    (updateScan st idx n).map.titleIndex =
      (if (!st.foundTitle && (!(n == "") && matchesHeaderToken n titleTokens)) = true
        then Int.ofNat idx else st.map.titleIndex) := by
  by_cases hn : (n == "") = true <;> by_cases hst : st.foundTitle <;>
    by_cases hm : matchesHeaderToken n titleTokens = true <;>
    simp [updateScan, hn, hst, hm]

theorem updateScan_nameIndex (st : HeaderScan) (idx : Nat) (n : String) :
    (updateScan st idx n).map.nameIndex =
      (if (!st.foundName && (!(n == "") && matchesHeaderToken n nameTokens)) = true
        then Int.ofNat idx else st.map.nameIndex) := by
  by_cases hn : (n == "") = true <;> by_cases hst : st.foundName <;>
    by_cases hm : matchesHeaderToken n nameTokens = true <;>
    simp [updateScan, hn, hst, hm]

theorem matchesHeaderToken_empty_extension : matchesHeaderToken "" extensionTokens = false := by
  decide

theorem matchesHeaderToken_empty_department : matchesHeaderToken "" departmentTokens = false := by
  decide

theorem matchesHeaderToken_empty_title : matchesHeaderToken "" titleTokens = false := by
  decide

theorem matchesHeaderToken_empty_name : matchesHeaderToken "" nameTokens = false := by
  decide

theorem headerPred_guard (tokens : List String) (hne : matchesHeaderToken "" tokens = false)
    (c : Cell) :
    (!(normalizeText (cellToText c) == "") &&
      matchesHeaderToken (normalizeText (cellToText c)) tokens) = headerPred tokens c := by
  unfold headerPred
  by_cases hn : (normalizeText (cellToText c) == "") = true
  · rw [eq_of_beq hn, hne]
    rfl
  · rw [Bool.not_eq_true] at hn
    rw [hn]
    simp

theorem scan_foundExtension (cells : List Cell) : ∀ (idx : Nat) (st : HeaderScan),
    (scanHeaderRow cells idx st).foundExtension =
      (st.foundExtension || cells.any (headerPred extensionTokens)) := by
  induction cells with
  | nil => intro idx st; simp [scanHeaderRow]
  | cons c cs ih =>
    intro idx st
    rw [scanHeaderRow, ih, List.any_cons, updateScan_foundExtension,
      headerPred_guard extensionTokens matchesHeaderToken_empty_extension c, Bool.or_assoc]

theorem scan_foundDepartment (cells : List Cell) : ∀ (idx : Nat) (st : HeaderScan),
    (scanHeaderRow cells idx st).foundDepartment =
      (st.foundDepartment || cells.any (headerPred departmentTokens)) := by
  induction cells with
  | nil => intro idx st; simp [scanHeaderRow]
  | cons c cs ih =>
    intro idx st
    rw [scanHeaderRow, ih, List.any_cons, updateScan_foundDepartment,
      headerPred_guard departmentTokens matchesHeaderToken_empty_department c, Bool.or_assoc]

theorem scan_foundName (cells : List Cell) : ∀ (idx : Nat) (st : HeaderScan),
    (scanHeaderRow cells idx st).foundName =
      (st.foundName || cells.any (headerPred nameTokens)) := by
  induction cells with
  | nil => intro idx st; simp [scanHeaderRow]
  | cons c cs ih =>
    intro idx st
    rw [scanHeaderRow, ih, List.any_cons, updateScan_foundName,
      headerPred_guard nameTokens matchesHeaderToken_empty_name c, Bool.or_assoc]

theorem scan_extensionIndex (cells : List Cell) : ∀ (idx : Nat) (st : HeaderScan),
    (scanHeaderRow cells idx st).map.extensionIndex =
      (if st.foundExtension = true then st.map.extensionIndex
       else
         match List.findIdx? (headerPred extensionTokens) cells idx with
         | some j => Int.ofNat j
         | none => st.map.extensionIndex) := by
  induction cells with
  | nil => intro idx st; simp [scanHeaderRow, List.findIdx?_nil]
  | cons c cs ih =>
    intro idx st
    rw [scanHeaderRow, ih, List.findIdx?_cons, updateScan_foundExtension,
      updateScan_extensionIndex,
      headerPred_guard extensionTokens matchesHeaderToken_empty_extension c]
    by_cases hst : st.foundExtension = true
    · simp [hst]
    · have hst' : st.foundExtension = false := by revert hst; cases st.foundExtension <;> simp
      by_cases hpc : headerPred extensionTokens c = true
      · simp [hst', hpc]
      · have hpc' : headerPred extensionTokens c = false := by
          revert hpc; cases headerPred extensionTokens c <;> simp
        simp [hst', hpc']

theorem scan_departmentIndex (cells : List Cell) : ∀ (idx : Nat) (st : HeaderScan),
    (scanHeaderRow cells idx st).map.departmentIndex =
      (if st.foundDepartment = true then st.map.departmentIndex
       else
         match List.findIdx? (headerPred departmentTokens) cells idx with
         | some j => Int.ofNat j
         | none => st.map.departmentIndex) := by
  induction cells with
  | nil => intro idx st; simp [scanHeaderRow, List.findIdx?_nil]
  | cons c cs ih =>
    intro idx st
    rw [scanHeaderRow, ih, List.findIdx?_cons, updateScan_foundDepartment,
      updateScan_departmentIndex,
      headerPred_guard departmentTokens matchesHeaderToken_empty_department c]
    by_cases hst : st.foundDepartment = true
    · simp [hst]
    · have hst' : st.foundDepartment = false := by revert hst; cases st.foundDepartment <;> simp
      by_cases hpc : headerPred departmentTokens c = true
      · simp [hst', hpc]
      · have hpc' : headerPred departmentTokens c = false := by
          revert hpc; cases headerPred departmentTokens c <;> simp
        simp [hst', hpc']

theorem scan_titleIndex (cells : List Cell) : ∀ (idx : Nat) (st : HeaderScan),
    (scanHeaderRow cells idx st).map.titleIndex =
      (if st.foundTitle = true then st.map.titleIndex
       else
         match List.findIdx? (headerPred titleTokens) cells idx with
         | some j => Int.ofNat j
         | none => st.map.titleIndex) := by
  induction cells with
  | nil => intro idx st; simp [scanHeaderRow, List.findIdx?_nil]
  | cons c cs ih =>
    intro idx st
    rw [scanHeaderRow, ih, List.findIdx?_cons, updateScan_foundTitle, updateScan_titleIndex,
      headerPred_guard titleTokens matchesHeaderToken_empty_title c]
    by_cases hst : st.foundTitle = true
    · simp [hst]
    · have hst' : st.foundTitle = false := by revert hst; cases st.foundTitle <;> simp
      by_cases hpc : headerPred titleTokens c = true
      · simp [hst', hpc]
      · have hpc' : headerPred titleTokens c = false := by
          revert hpc; cases headerPred titleTokens c <;> simp
        simp [hst', hpc']

theorem scan_nameIndex (cells : List Cell) : ∀ (idx : Nat) (st : HeaderScan),
    (scanHeaderRow cells idx st).map.nameIndex =
      (if st.foundName = true then st.map.nameIndex
       else
         match List.findIdx? (headerPred nameTokens) cells idx with
         | some j => Int.ofNat j
         | none => st.map.nameIndex) := by
  induction cells with
  | nil => intro idx st; simp [scanHeaderRow, List.findIdx?_nil]
  | cons c cs ih =>
    intro idx st
    rw [scanHeaderRow, ih, List.findIdx?_cons, updateScan_foundName, updateScan_nameIndex,
      headerPred_guard nameTokens matchesHeaderToken_empty_name c]
    by_cases hst : st.foundName = true
    · simp [hst]
    · have hst' : st.foundName = false := by revert hst; cases st.foundName <;> simp
      by_cases hpc : headerPred nameTokens c = true
      · simp [hst', hpc]
      · have hpc' : headerPred nameTokens c = false := by
          revert hpc; cases headerPred nameTokens c <;> simp
        simp [hst', hpc']

theorem columnMap_ext (a b : ColumnMap) (h1 : a.extensionIndex = b.extensionIndex)
    (h2 : a.departmentIndex = b.departmentIndex) (h3 : a.titleIndex = b.titleIndex)
    (h4 : a.nameIndex = b.nameIndex) : a = b := by
  cases a; cases b; simp_all

theorem scanRow_qualifies (row : List Cell) :
    ((scanHeaderRow row 0 initHeaderScan).foundName &&
      ((scanHeaderRow row 0 initHeaderScan).foundExtension ||
        (scanHeaderRow row 0 initHeaderScan).foundDepartment)) = specRowQualifies row := by
  rw [scan_foundName, scan_foundExtension, scan_foundDepartment]
  unfold specRowQualifies specRowIdx
  rw [List.findIdx?_isSome, List.findIdx?_isSome, List.findIdx?_isSome]
  simp [initHeaderScan]

theorem scanRow_map_eq_spec (row : List Cell) :
    (scanHeaderRow row 0 initHeaderScan).map = specColumnMap row := by
  apply columnMap_ext
  · rw [scan_extensionIndex]
    cases hf : List.findIdx? (headerPred extensionTokens) row 0 <;>
      simp [initHeaderScan, specColumnMap, specRowIdx, optIdxToInt, hf]
  · rw [scan_departmentIndex]
    cases hf : List.findIdx? (headerPred departmentTokens) row 0 <;>
      simp [initHeaderScan, specColumnMap, specRowIdx, optIdxToInt, hf]
  · rw [scan_titleIndex]
    cases hf : List.findIdx? (headerPred titleTokens) row 0 <;>
      simp [initHeaderScan, specColumnMap, specRowIdx, optIdxToInt, hf]
  · rw [scan_nameIndex]
    cases hf : List.findIdx? (headerPred nameTokens) row 0 <;>
      simp [initHeaderScan, specColumnMap, specRowIdx, optIdxToInt, hf]

theorem detectHeaderAux_spec (rows : List (List Cell)) : ∀ i, i ≤ 20 →
    detectHeaderAux rows i =
      (match List.findIdx? specRowQualifies (rows.take (20 - i)) 0 with
       | some j => (Int.ofNat (i + j), specColumnMap ((rows.take (20 - i)).getD j []))
       | none => ((-1 : Int), defaultColumnMap)) := by
  induction rows with
  | nil =>
    intro i hi
    simp [detectHeaderAux, List.take_nil, List.findIdx?_nil]
  | cons r rest ih =>
    intro i hi
    by_cases h20 : i ≥ 20
    · have h20' : 20 - i = 0 := by omega
      rw [detectHeaderAux, if_pos h20, h20']
      simp [List.findIdx?_nil]
    · have hk : 20 - i = (20 - (i + 1)) + 1 := by omega
      rw [detectHeaderAux, if_neg h20, hk, List.take_succ_cons, List.findIdx?_cons]
      simp only []
      rw [scanRow_qualifies]
      by_cases hq : specRowQualifies r = true
      · rw [if_pos hq, if_pos hq, scanRow_map_eq_spec]
        simp
      · rw [if_neg hq, if_neg hq, ih (i + 1) (by omega)]
        rw [findIdx?_start_shift specRowQualifies (List.take (20 - (i + 1)) rest) 1]
        cases ho : List.findIdx? specRowQualifies (List.take (20 - (i + 1)) rest) 0 with
        | none => simp [ho]
        | some j =>
          simp only [ho, Option.map_some']
          simp only [Prod.mk.injEq]
          constructor
          · apply congrArg
            omega
          · rw [show 1 + j = j + 1 from Nat.add_comm 1 j, List.getD_cons_succ]

/-- **C1.**  Header detection returns the lowest-index row among the first
20 scanned rows that matches the name dictionary and at least one of the
extension or department dictionaries, recording for each category the first
matching column index of that row (-1 for a category with no match); when no
row in the scan window qualifies it returns `headerRowIndex = -1` together
with the fixed default column indices extension=1, department=2, title=3,
name=4. -/
theorem c1_header_detection (rawData : List (List Cell)) :
    detectHeaderMapping rawData =
      (match List.findIdx? specRowQualifies (rawData.take 20) 0 with
       | some i => (Int.ofNat i, specColumnMap ((rawData.take 20).getD i []))
       | none => ((-1 : Int), defaultColumnMap)) := by
  have h := detectHeaderAux_spec rawData 0 (by omega)
  rw [Nat.sub_zero] at h
  unfold detectHeaderMapping
  rw [h]
  cases ho : List.findIdx? specRowQualifies (rawData.take 20) 0 <;> simp [ho]
